import Mathlib

/-!
Verification development for the on-disk B+ tree of xiaolongbaodb
(main file: the `order = 4` version containing Insert / insertIntoLeaf /
insertIntoParent / splitLeafIntoTwoLeaves / mayUpdateParentKeys /
reconstructRootNode / flushNodeToDisk / seekNode).

The development has two layers.

* `Codec`: a byte-level translation of the serialization performed by
  `flushNodeToDisk` and `seekNode` through Go's `encoding/binary`
  package.  `binary.Write` / `binary.Read` accept only fixed-size data
  (bool, int8..int64, uint8..uint64, float, and compounds of those);
  a machine-width Go `int` or a `string` makes them return an
  "invalid type" error without consuming or producing bytes.  The
  source feeds `int` counts/keys and `string` values to them, so this
  layer exposes that the codec can never succeed, and that
  `flushNodeToDisk` performs no file write at all (it only fills an
  in-memory `bytes.Buffer` and returns).

* the algorithmic layer: the tree manipulation logic, with storage
  abstracted: `seekNode` is a lookup in a map of decoded blocks and
  `flushNodeToDisk` is recorded in a trace (idealized as succeeding,
  so that the insert/split/promotion logic that the remaining claims
  describe is exposed; the byte-level truth is settled in the `Codec`
  layer).  Go loops are fueled; in-place slice mutations are made
  explicit, including the aliasing behaviour of `append` on the
  exact-capacity slices produced by `seekNode`.
-/

/-! ### Definitions -/

def INVALID_OFFSET : Int := 0xdeadbeef

def MAX_FREEBLOCKS : Nat := 100

def BLOCK_SIZE : Int := 4096

def order : Nat := 4

/-- Node structure exactly as in the source. -/
structure Node where
  IsActive : Bool
  IsLeaf : Bool
  Self : Int
  Next : Int
  Prev : Int
  Parent : Int
  Children : List Int
  Keys : List Int
  Values : List String

deriving Repr, DecidableEq

namespace Codec

/-- Errors of the byte-level layer. -/
inductive BinErr where
  /-- encoding/binary "invalid type": data is not fixed-size. -/
  | invalidType
  /-- a short or failing positioned read. -/
  | readFailed
deriving Repr, DecidableEq

/-- Little-endian encoding of a 64-bit two's-complement integer. -/
def le64 (x : Int) : List UInt8 :=
  let n := (x % (2 : Int) ^ 64).toNat
  (List.range 8).map fun i => UInt8.ofNat ((n >>> (8 * i)) % 256)

/-- binary.Write of a Go bool: one byte. -/
def writeBool (b : Bool) : Except BinErr (List UInt8) :=
  .ok [if b then 1 else 0]

/-- binary.Write of a Go int64: 8 bytes little-endian. -/
def writeInt64 (x : Int) : Except BinErr (List UInt8) :=
  .ok (le64 x)

/-- binary.Write of a machine-width Go `int`: encoding/binary rejects it
("invalid type int", not fixed-size), regardless of the value. -/
def writeGoInt (_x : Int) : Except BinErr (List UInt8) :=
  .error .invalidType

/-- binary.Write of a Go `string`: encoding/binary rejects it. -/
def writeGoString (_s : String) : Except BinErr (List UInt8) :=
  .error .invalidType

/-- The children loop of flushNodeToDisk: each offset is an int64. -/
def writeInt64List : List Int → Except BinErr (List UInt8)
  | [] => .ok []
  | x :: xs => do
    let b ← writeInt64 x
    let rest ← writeInt64List xs
    pure (b ++ rest)

/-- The keys loop of flushNodeToDisk: each key is a Go `int`. -/
def writeGoIntList : List Int → Except BinErr (List UInt8)
  | [] => .ok []
  | x :: xs => do
    let b ← writeGoInt x
    let rest ← writeGoIntList xs
    pure (b ++ rest)

/-- The values loop of flushNodeToDisk: each value is a Go `string`
(written directly, with no length prefix). -/
def writeGoStringList : List String → Except BinErr (List UInt8)
  | [] => .ok []
  | s :: xs => do
    let b ← writeGoString s
    let rest ← writeGoStringList xs
    pure (b ++ rest)

/-- The buffer construction of `flushNodeToDisk`, field for field in
source order: IsActive, IsLeaf, Self, Next, Prev, Parent, children
count (`childCnt := len(n.Children)`, a Go `int`), the children, keys
count (Go `int`), the keys (Go `int`s), values count (Go `int`), the
values (Go `string`s, no length prefix).  Each failing `binary.Write`
returns its error immediately, as in the source. -/
def encodeNode (n : Node) : Except BinErr (List UInt8) := do
  let bActive ← writeBool n.IsActive
  let bLeaf ← writeBool n.IsLeaf
  let bSelf ← writeInt64 n.Self
  let bNext ← writeInt64 n.Next
  let bPrev ← writeInt64 n.Prev
  let bParent ← writeInt64 n.Parent
  let bChildCnt ← writeGoInt (n.Children.length : Int)
  let bChildren ← writeInt64List n.Children
  let bKeysCnt ← writeGoInt (n.Keys.length : Int)
  let bKeys ← writeGoIntList n.Keys
  let bValuesCnt ← writeGoInt (n.Values.length : Int)
  let bValues ← writeGoStringList n.Values
  pure (bActive ++ bLeaf ++ bSelf ++ bNext ++ bPrev ++ bParent ++
        bChildCnt ++ bChildren ++ bKeysCnt ++ bKeys ++ bValuesCnt ++ bValues)

/-- The file half of `flushNodeToDisk`: the source serializes into a
local `bytes.Buffer` and returns without any `WriteAt`/`Seek`/`Write`
on `t.file`, so the file bytes are passed through unchanged (and the
serialization itself fails, see `encodeNode`). -/
def flushNodeToDiskFile (n : Node) (file : List UInt8) :
    List UInt8 × Except BinErr Unit :=
  (file, (encodeNode n).map fun _ => ())

/-- Positioned read of `count` bytes at `off`: fails on a short read,
as `file.ReadAt` does in `seekNode`. -/
def readAt (file : List UInt8) (off : Int) (count : Nat) :
    Except BinErr (List UInt8) :=
  if 0 ≤ off ∧ off.toNat + count ≤ file.length then
    .ok ((file.drop off.toNat).take count)
  else
    .error .readFailed

/-- binary.Read into a Go `*int`: encoding/binary rejects it
("invalid type *int"), regardless of the bytes. -/
def readGoInt (_bytes : List UInt8) : Except BinErr (Int × List UInt8) :=
  .error .invalidType

/-- The prefix half of `seekNode`: ReadAt 8 bytes at `off`, then
`binary.Read(bs, binary.LittleEndian, &dataLen)` with `dataLen` a Go
`int`.  The second step always fails with an invalid-type error, so no
node is ever decoded from a file. -/
def seekNodeBytes (file : List UInt8) (off : Int) : Except BinErr Node := do
  let buf ← readAt file off 8
  let (dataLen, _rest) ← readGoInt buf
  if dataLen + 8 > BLOCK_SIZE then
    throw .readFailed
  else
    throw .readFailed

/-- Spec-following serialization (named `encodeNodeSpec` for the
refinement comparison of the write-block claim): the layout of spec
section 4.A with every count, key and string length as 64-bit
little-endian. -/
def encodeNodeSpec (n : Node) : List UInt8 :=
  (if n.IsActive then [(1 : UInt8)] else [0]) ++
  (if n.IsLeaf then [(1 : UInt8)] else [0]) ++
  le64 n.Self ++ le64 n.Next ++ le64 n.Prev ++ le64 n.Parent ++
  le64 (n.Children.length : Int) ++ (n.Children.map le64).flatten ++
  le64 (n.Keys.length : Int) ++ (n.Keys.map le64).flatten ++
  le64 (n.Values.length : Int) ++
  (n.Values.map fun s =>
    le64 (s.toUTF8.toList.length : Int) ++ s.toUTF8.toList).flatten

/-- Overwrite `data` into `file` at byte position `off`, zero-padding
and extending as needed. -/
def writeAt (file : List UInt8) (off : Nat) (data : List UInt8) : List UInt8 :=
  (file.take off ++ List.replicate (off - file.length) 0) ++ data ++
    file.drop (off + data.length)

/-- Spec-following `write_block` (refinement comparison): encode the
node, write the 8-byte little-endian `data_len` prefix followed by the
payload at `node.self_off`. -/
def specWriteBlock (file : List UInt8) (n : Node) : List UInt8 :=
  let payload := encodeNodeSpec n
  writeAt file n.Self.toNat (le64 (payload.length : Int) ++ payload)

end Codec

/-- A sample in-memory node: the root leaf the first insertion is
supposed to create (keys [1], values ["a"], at offset 0). -/
def sampleLeaf : Node :=
  { IsActive := true, IsLeaf := true, Self := 0,
    Next := INVALID_OFFSET, Prev := INVALID_OFFSET,
    Parent := INVALID_OFFSET, Children := [], Keys := [1], Values := ["a"] }

deriving instance DecidableEq for Except

/-! The remaining definitions form the algorithmic layer: the tree
manipulation logic with storage abstracted.  `seekNode` is a lookup in
the map of decoded blocks and `flushNodeToDisk` records the call in a
trace and succeeds (the byte-level truth — no file write, failing
codec — is the `Codec` layer above).  The disk map is immutable
during an operation, exactly as in the source, where every `seekNode`
re-decodes the unchanged file bytes.  Go loops and recursions carry
explicit fuel; running out of fuel yields the marker error `fuelOut`,
never hit under the hypotheses used below.  In-place slice mutations
are made explicit, including the aliasing behaviour of `append` on the
exact-capacity slices produced by `seekNode`. -/

inductive GoErr where
  /-- ErrorHasExistedKey. -/
  | hasExistedKey
  /-- ErrorInvalidDBFormat. -/
  | invalidDBFormat
  /-- a failing seekNode: the offset holds no decodable block. -/
  | readError
  /-- a Go runtime panic (index out of range, nil dereference). -/
  | runtimeFault
  /-- fuel exhaustion of the model. -/
  | fuelOut

deriving Repr, DecidableEq

structure TreeState where
  disk : List (Int × Node)
  rootOff : Int
  freeBlocks : List Int
  fileSize : Int
  flushed : List Node

deriving Repr, DecidableEq

def diskGet : List (Int × Node) → Int → Option Node
  | [], _ => none
  | (o, n) :: rest, off => if o = off then some n else diskGet rest off

/-- seekNode of the algorithmic layer: decode the block at `off`. -/
def seekNode (st : TreeState) (off : Int) : Option Node :=
  diskGet st.disk off

/-- flushNodeToDisk of the algorithmic layer: the call is recorded in
the trace and succeeds.  (The byte-level behaviour of the source —
no file write, failing buffer construction — is settled separately in
the `Codec` layer.) -/
def flushNodeToDisk (st : TreeState) (n : Node) : TreeState × Except GoErr Unit :=
  ({ st with flushed := st.flushed ++ [n] }, .ok ())

/-- The scan phase of allocNewFreeNodeInDisk: walk offsets
0, BLOCK_SIZE, … below fileSize and collect inactive blocks.  The
source returns the error of any failing seekNode. -/
def allocScan (st : TreeState) : Nat → Int → Except GoErr (List Int)
  | 0, _ => .error .fuelOut
  | fuel + 1, off =>
    if off < st.fileSize then
      match seekNode st off with
      | none => .error .readError
      | some node =>
        match allocScan st fuel (off + BLOCK_SIZE) with
        | .error e => .error e
        | .ok rest => .ok (if !node.IsActive then off :: rest else rest)
    else .ok []

/-- The extend phase of allocNewFreeNodeInDisk: append tail offsets
until the pool holds MAX_FREEBLOCKS entries, advancing next_file by
BLOCK_SIZE each time. -/
def extendFreeBlocks : Nat → List Int → Int → List Int × Int
  | 0, fbs, next => (fbs, next)
  | fuel + 1, fbs, next =>
    if fbs.length < MAX_FREEBLOCKS then
      extendFreeBlocks fuel (fbs ++ [next]) (next + BLOCK_SIZE)
    else (fbs, next)

def allocNewFreeNodeInDisk (st : TreeState) (fuel : Nat) :
    TreeState × Except GoErr Unit :=
  match allocScan st fuel 0 with
  | .error e => (st, .error e)
  | .ok found =>
    let fbs := st.freeBlocks ++ found
    let nextFile := ((st.fileSize + 4095) / 4096) * 4096
    let (fbs, nextFile) := extendFreeBlocks MAX_FREEBLOCKS fbs nextFile
    ({ st with freeBlocks := fbs, fileSize := nextFile }, .ok ())

def newNodeFromDisk (st : TreeState) (fuel : Nat) :
    TreeState × Except GoErr Node :=
  let step : TreeState × Except GoErr Unit :=
    if st.freeBlocks.isEmpty then allocNewFreeNodeInDisk st fuel else (st, .ok ())
  match step with
  | (st, .error e) => (st, .error e)
  | (st, .ok ()) =>
    match st.freeBlocks with
    | [] => (st, .error .runtimeFault)
    | off :: rest =>
      ({ st with freeBlocks := rest },
       .ok { IsActive := true, IsLeaf := false, Self := off,
             Next := INVALID_OFFSET, Prev := INVALID_OFFSET,
             Parent := INVALID_OFFSET, Children := [], Keys := [], Values := [] })

/-- Go's sort.Search: binary search on [i, j) for the least index
satisfying f, returning j when none does.  Each step halves the
interval, so fuel = initial width is always enough. -/
def goSearchAux (f : Nat → Bool) : Nat → Nat → Nat → Nat
  | 0, i, _ => i
  | fuel + 1, i, j =>
    if i < j then
      let h := (i + j) / 2
      if f h then goSearchAux f fuel i h else goSearchAux f fuel (h + 1) j
    else i

def goSearch (n : Nat) (f : Nat → Bool) : Nat :=
  goSearchAux f n 0 n

/-- getIndex from the source: sort.Search for the smallest i with
key ≤ keys[i].  The same inlined search is used by findLeafNode and
insertKeyValIntoLeaf. -/
def getIndex (keys : List Int) (key : Int) : Nat :=
  goSearch keys.length fun i => decide (key ≤ keys.getD i 0)

/-- Effect of the shift-insert idiom
`xs = append(xs, x); for i := len(xs)-1; i > idx; i-- { xs[i] = xs[i-1] }; xs[idx] = x`
used on keys and values by insertKeyValIntoLeaf and on keys by
insertIntoParent.  The shift loop inserts x at position idx whenever
idx ≤ len xs, which holds at every call site because sort.Search
returns an index in [0, len]. -/
def goInsertAt (xs : List α) (idx : Nat) (x : α) : List α :=
  xs.take idx ++ x :: xs.drop idx

/-- Children insertion of insertIntoParent.  The source computes
`tmpChild := parent.Children[idx+1:]` and then
`parent.Children = append(append(parent.Children[:idx+1], rightOff), tmpChild...)`.
`parent` always comes from seekNode, whose slices are built with
`make([]int64, childCnt)`, so len = cap.  For idx+1 < len the inner
append therefore stores rightOff in place into the shared backing
array: the saved view tmpChild then begins with rightOff and the
original Children[idx+1] is lost, so rightOff appears twice.  For
idx+1 ≥ len the inner append reallocates and the whole expression is
a plain append at the end. -/
def goChildrenInsert (children : List Int) (idx : Nat) (rightOff : Int) : List Int :=
  if idx + 1 < children.length then
    children.take (idx + 1) ++ rightOff :: rightOff :: children.drop (idx + 2)
  else
    children ++ [rightOff]

/-- Descent loop of findLeafNode: search the smallest i with
keys[i] ≥ key, fall back to the rightmost child when the key exceeds
every stored key, and seek that child. -/
def findLeafLoop (st : TreeState) (key : Int) : Nat → Node → Except GoErr Node
  | 0, _ => .error .fuelOut
  | fuel + 1, node =>
    if node.IsLeaf then .ok node
    else
      let idx := getIndex node.Keys key
      let idxI : Int :=
        if idx = node.Keys.length then (node.Keys.length : Int) - 1 else (idx : Int)
      if idxI < 0 then .error .runtimeFault
      else
        match node.Children.get? idxI.toNat with
        | none => .error .runtimeFault
        | some childOff =>
          match seekNode st childOff with
          | none => .error .readError
          | some child => findLeafLoop st key fuel child

def findLeafNode (st : TreeState) (key : Int) (fuel : Nat) : Except GoErr Node :=
  match seekNode st st.rootOff with
  | none => .error .readError
  | some root => findLeafLoop st key fuel root

/-- insertKeyValIntoLeaf: reject an existing key before any mutation,
otherwise insert key and value at the search index (the source shifts
keys and values with one loop bounded by len(n.Keys), which is the
lockstep insertion whenever len(n.Values) = len(n.Keys), the leaf
well-formedness maintained by every writer). -/
def insertKeyValIntoLeaf (n : Node) (key : Int) (val : String) :
    Except GoErr (Node × Nat) :=
  let idx := getIndex n.Keys key
  if idx < n.Keys.length ∧ n.Keys.getD idx 0 = key then
    .error .hasExistedKey
  else
    .ok ({ n with Keys := goInsertAt n.Keys idx key,
                  Values := goInsertAt n.Values idx val }, idx)

/-- The ascent loop of mayUpdateParentKeys.  Loop condition exactly as
in the source: continue while the offset to update is valid and the
slot updated at the previous level was the last slot of that level's
node.  Inside: seek the parent, locate the child slot holding the
current node's offset (idx is left unchanged when no slot matches, as
in the source's range loop), overwrite that slot's key, flush (the
source ignores this flush's error), and ascend. -/
def walkLoop (key : Int) : Nat → Int → Int → Node → TreeState →
    TreeState × Except GoErr Unit
  | 0, _, _, _, st => (st, .error .fuelOut)
  | fuel + 1, idx, off, cur, st =>
    if off ≠ INVALID_OFFSET ∧ idx = (cur.Keys.length : Int) - 1 then
      match seekNode st off with
      | none => (st, .error .readError)
      | some p =>
        let idx' : Int :=
          match p.Children.findIdx? (fun v => v == cur.Self) with
          | some k => (k : Int)
          | none => idx
        if 0 ≤ idx' ∧ idx'.toNat < p.Keys.length then
          let p' := { p with Keys := p.Keys.set idx'.toNat key }
          let (st, _) := flushNodeToDisk st p'
          walkLoop key fuel idx' p'.Parent p' st
        else (st, .error .runtimeFault)
    else (st, .ok ())

def mayUpdateParentKeys (st : TreeState) (leaf : Node) (idx : Nat) (fuel : Nat) :
    TreeState × Except GoErr Unit :=
  if (idx : Int) = (leaf.Keys.length : Int) - 1 ∧ leaf.Parent ≠ INVALID_OFFSET then
    let key := leaf.Keys.getD (leaf.Keys.length - 1) 0
    walkLoop key fuel (idx : Int) leaf.Parent leaf st
  else (st, .ok ())

def cut (length : Nat) : Nat := (length + 1) / 2

/-- splitLeafIntoTwoLeaves: move entries [split, order] to the new
leaf, truncate the old one, thread sibling links, inherit the parent,
flush both, and update the previous successor's Prev when there was
one.  The source indexes leaf.Keys[i] and leaf.Values[i] for
i = split..order, a runtime panic unless both have more than `order`
entries. -/
def splitLeafIntoTwoLeaves (st : TreeState) (leaf newLeaf : Node) :
    TreeState × Node × Node × Except GoErr Unit :=
  let split := cut order
  if order < leaf.Keys.length ∧ order < leaf.Values.length then
    let newLeaf := { newLeaf with
      Keys := (leaf.Keys.drop split).take (order + 1 - split),
      Values := (leaf.Values.drop split).take (order + 1 - split) }
    let newLeaf := { newLeaf with
      Next := leaf.Next, Prev := leaf.Self, Parent := leaf.Parent }
    let leaf := { leaf with
      Keys := leaf.Keys.take split, Values := leaf.Values.take split,
      Next := newLeaf.Self }
    match flushNodeToDisk st leaf with
    | (st, .error e) => (st, leaf, newLeaf, .error e)
    | (st, .ok ()) =>
      match flushNodeToDisk st newLeaf with
      | (st, .error e) => (st, leaf, newLeaf, .error e)
      | (st, .ok ()) =>
        if newLeaf.Next ≠ INVALID_OFFSET then
          match seekNode st newLeaf.Next with
          | none => (st, leaf, newLeaf, .error .readError)
          | some nextNode =>
            let nextNode := { nextNode with Prev := newLeaf.Self }
            match flushNodeToDisk st nextNode with
            | (st, r) => (st, leaf, newLeaf, r)
        else (st, leaf, newLeaf, .ok ())
  else (st, leaf, newLeaf, .error .runtimeFault)

/-- newRootNode: allocate, set keys to the two maxima and children to
the two offsets, point both children at the new root, move rootOff,
and flush left, right, root in that order. -/
def newRootNode (st : TreeState) (left right : Node) (fuel : Nat) :
    TreeState × Except GoErr Unit :=
  match newNodeFromDisk st fuel with
  | (st, .error e) => (st, .error e)
  | (st, .ok root) =>
    match left.Keys.getLast?, right.Keys.getLast? with
    | some lk, some rk =>
      let root := { root with Keys := [lk, rk], Children := [left.Self, right.Self] }
      let left := { left with Parent := root.Self }
      let right := { right with Parent := root.Self }
      let st := { st with rootOff := root.Self }
      match flushNodeToDisk st left with
      | (st, .error e) => (st, .error e)
      | (st, .ok ()) =>
        match flushNodeToDisk st right with
        | (st, .error e) => (st, .error e)
        | (st, .ok ()) => flushNodeToDisk st root
    | _, _ => (st, .error .runtimeFault)

/-- The split→promote loop body over indices split..order of the
oversized parent: move child offset and key i to the new node, seek
that child, repoint its Parent, flush it. -/
def splitParentLoop (st : TreeState) (parent : Node) (newNode : Node) :
    List Nat → TreeState × Node × Except GoErr Unit
  | [] => (st, newNode, .ok ())
  | i :: rest =>
    match parent.Children.get? i, parent.Keys.get? i with
    | some c, some k =>
      let newNode := { newNode with
        Children := newNode.Children ++ [c], Keys := newNode.Keys ++ [k] }
      match seekNode st c with
      | none => (st, newNode, .error .readError)
      | some child =>
        let child := { child with Parent := newNode.Self }
        match flushNodeToDisk st child with
        | (st, .error e) => (st, newNode, .error e)
        | (st, .ok ()) => splitParentLoop st parent newNode rest
    | _, _ => (st, newNode, .error .runtimeFault)

/-- insertIntoParent, translated with its control flow intact.  In
particular the root branch does not return: after newRootNode the
source continues into `t.seekNode(parentOff)` with
parentOff = INVALID_OFFSET. -/
def insertIntoParent : Nat → TreeState → Node → TreeState × Except GoErr Unit
  | 0, st, _ => (st, .error .fuelOut)
  | fuel + 1, st, leaf =>
    let parentOff := leaf.Parent
    let rightOff := leaf.Next
    match leaf.Keys.getLast? with
    | none => (st, .error .runtimeFault)
    | some key =>
      let rootStep : TreeState × Except GoErr Unit :=
        if parentOff = INVALID_OFFSET then
          match seekNode st leaf.Self with
          | none => (st, .error .readError)
          | some left =>
            match seekNode st rightOff with
            | none => (st, .error .readError)
            | some right => newRootNode st left right fuel
        else (st, .ok ())
      match rootStep with
      | (st, .error e) => (st, .error e)
      | (st, .ok ()) =>
        match seekNode st parentOff with
        | none => (st, .error .readError)
        | some parent =>
          let idx := getIndex parent.Keys key
          let parent := { parent with Keys := goInsertAt parent.Keys idx key }
          if idx = parent.Children.length then
            (st, .ok ())
          else
            let parent := { parent with
              Children := goChildrenInsert parent.Children idx rightOff }
            if parent.Keys.length ≤ order then
              flushNodeToDisk st parent
            else
              match newNodeFromDisk st fuel with
              | (st, .error e) => (st, .error e)
              | (st, .ok newNode) =>
                let split := cut order
                match splitParentLoop st parent newNode
                    (List.range' split (order + 1 - split)) with
                | (st, _, .error e) => (st, .error e)
                | (st, newNode, .ok ()) =>
                  let newNode := { newNode with Parent := parent.Parent }
                  let parent := { parent with
                    Children := parent.Children.take split,
                    Keys := parent.Keys.take split }
                  let newNode := { newNode with
                    Next := parent.Next, Prev := parent.Self }
                  let parent := { parent with Next := newNode.Self }
                  let nextStep : TreeState × Except GoErr Unit :=
                    if newNode.Next ≠ INVALID_OFFSET then
                      match seekNode st newNode.Next with
                      | none => (st, .error .readError)
                      | some oriNextNode =>
                        let oriNextNode := { oriNextNode with Prev := newNode.Self }
                        flushNodeToDisk st oriNextNode
                    else (st, .ok ())
                  match nextStep with
                  | (st, .error e) => (st, .error e)
                  | (st, .ok ()) =>
                    match flushNodeToDisk st parent with
                    | (st, .error e) => (st, .error e)
                    | (st, .ok ()) =>
                      match flushNodeToDisk st newNode with
                      | (st, .error e) => (st, .error e)
                      | (st, .ok ()) => insertIntoParent fuel st parent

def insertIntoLeaf (st : TreeState) (key : Int) (val : String) (fuel : Nat) :
    TreeState × Except GoErr Unit :=
  match findLeafNode st key fuel with
  | .error e => (st, .error e)
  | .ok leaf =>
    match insertKeyValIntoLeaf leaf key val with
    | .error e => (st, .error e)
    | .ok (leaf, idx) =>
      match mayUpdateParentKeys st leaf idx fuel with
      | (st, .error e) => (st, .error e)
      | (st, .ok ()) =>
        if leaf.Keys.length ≤ order then
          flushNodeToDisk st leaf
        else
          match newNodeFromDisk st fuel with
          | (st, .error e) => (st, .error e)
          | (st, .ok newLeaf) =>
            let newLeaf := { newLeaf with IsLeaf := true }
            match splitLeafIntoTwoLeaves st leaf newLeaf with
            | (st, _, _, .error e) => (st, .error e)
            | (st, leaf, _, .ok ()) => insertIntoParent fuel st leaf

/-- Insert from the source (named TreeInsert because Insert is taken by
a core typeclass): empty-tree check against INVALID_OFFSET, else the
leaf path. -/
def TreeInsert (st : TreeState) (key : Int) (val : String) (fuel : Nat) :
    TreeState × Except GoErr Unit :=
  if st.rootOff = INVALID_OFFSET then
    match newNodeFromDisk st fuel with
    | (st, .error e) => (st, .error e)
    | (st, .ok node) =>
      let st := { st with rootOff := node.Self }
      let node := { node with
        Keys := node.Keys ++ [key], Values := node.Values ++ [val], IsLeaf := true }
      flushNodeToDisk st node
  else
    insertIntoLeaf st key val fuel

/-- NewTree on a file of size zero: `t := &Tree{}` leaves every field
at its Go zero value — in particular rootOff = 0 — and, since
fileSize = 0, neither reconstructRootNode nor allocNewFreeNodeInDisk
runs, so the free pool stays empty. -/
def newTreeOnEmptyFile : TreeState :=
  { disk := [], rootOff := 0, freeBlocks := [], fileSize := 0, flushed := [] }

/-- Scan loop of reconstructRootNode: walk block-aligned offsets below
fileSize, keeping the last decoded node (`none` before the first
iteration, matching the source's nil pointer), and stop early at the
first active node.  Any failing seekNode aborts with its error. -/
def reconScan (st : TreeState) : Nat → Int → Option Node →
    Except GoErr (Option Node)
  | 0, _, _ => .error .fuelOut
  | fuel + 1, off, last =>
    if off < st.fileSize then
      match seekNode st off with
      | none => .error .readError
      | some node =>
        if node.IsActive then .ok (some node)
        else reconScan st fuel (off + BLOCK_SIZE) (some node)
    else .ok last

/-- Parent chase of reconstructRootNode: follow Parent links until the
sentinel. -/
def chaseParent (st : TreeState) : Nat → Node → Except GoErr Node
  | 0, _ => .error .fuelOut
  | fuel + 1, node =>
    if node.Parent ≠ INVALID_OFFSET then
      match seekNode st node.Parent with
      | none => .error .readError
      | some p => chaseParent st fuel p
    else .ok node

/-- reconstructRootNode: find the first active block, fail with the
invalid-format error when the scan ends on an inactive node (a nil
node — zero scanned blocks — would be a Go nil dereference), then
chase Parent links and record the terminal node's offset as rootOff. -/
def reconstructRootNode (st : TreeState) (fuel : Nat) :
    TreeState × Except GoErr Unit :=
  match reconScan st fuel 0 none with
  | .error e => (st, .error e)
  | .ok none => (st, .error .runtimeFault)
  | .ok (some node) =>
    if !node.IsActive then (st, .error .invalidDBFormat)
    else
      match chaseParent st fuel node with
      | .error e => (st, .error e)
      | .ok root => ({ st with rootOff := root.Self }, .ok ())

/-- Left half of a split root leaf, at offset 0. -/
def c3Left : Node :=
  { IsActive := true, IsLeaf := true, Self := 0, Next := 4096,
    Prev := INVALID_OFFSET, Parent := INVALID_OFFSET,
    Children := [], Keys := [1, 2], Values := ["a", "b"] }

/-- Right half of a split root leaf, at offset 4096. -/
def c3Right : Node :=
  { IsActive := true, IsLeaf := true, Self := 4096, Next := INVALID_OFFSET,
    Prev := 0, Parent := INVALID_OFFSET,
    Children := [], Keys := [3, 4, 5], Values := ["c", "d", "e"] }

/-- State right after the root leaf was split: both halves on disk, the
old root offset still recorded, one free block at 8192. -/
def c3State : TreeState :=
  { disk := [(0, c3Left), (4096, c3Right)], rootOff := 0,
    freeBlocks := [8192], fileSize := 12288, flushed := [] }

/-- Parent of the C4 scenario: an internal root whose keys are the
maxima 9 and 20 of its two leaves at offsets 100 and 300. -/
def c4Parent : Node :=
  { IsActive := true, IsLeaf := false, Self := 12288, Next := INVALID_OFFSET,
    Prev := INVALID_OFFSET, Parent := INVALID_OFFSET,
    Children := [100, 300], Keys := [9, 20], Values := [] }

/-- The left half of the just-split leaf at offset 100: maximum 2, new
right sibling at 150. -/
def c4Left : Node :=
  { IsActive := true, IsLeaf := true, Self := 100, Next := 150,
    Prev := INVALID_OFFSET, Parent := 12288,
    Children := [], Keys := [1, 2], Values := ["a", "b"] }

/-- The new right sibling at offset 150: it received the upper half
[3, 4, 9] of the split, so its maximum is 9. -/
def c4Right : Node :=
  { IsActive := true, IsLeaf := true, Self := 150, Next := INVALID_OFFSET,
    Prev := 100, Parent := 12288,
    Children := [], Keys := [3, 4, 9], Values := ["c", "d", "x"] }

def c4State : TreeState :=
  { disk := [(100, c4Left), (150, c4Right), (12288, c4Parent)],
    rootOff := 12288, freeBlocks := [16384], fileSize := 16384, flushed := [] }

/-- The internal root of scenario S3: keys [2, 5] are the maxima of
its two leaves. -/
def c6Root : Node :=
  { IsActive := true, IsLeaf := false, Self := 8192, Next := INVALID_OFFSET,
    Prev := INVALID_OFFSET, Parent := INVALID_OFFSET,
    Children := [0, 4096], Keys := [2, 5], Values := [] }

def c6LeafL : Node :=
  { IsActive := true, IsLeaf := true, Self := 0, Next := 4096,
    Prev := INVALID_OFFSET, Parent := 8192,
    Children := [], Keys := [1, 2], Values := ["a", "b"] }

def c6LeafR : Node :=
  { IsActive := true, IsLeaf := true, Self := 4096, Next := INVALID_OFFSET,
    Prev := 0, Parent := 8192,
    Children := [], Keys := [3, 4, 5], Values := ["c", "d", "e"] }

def c6State : TreeState :=
  { disk := [(0, c6LeafL), (4096, c6LeafR), (8192, c6Root)], rootOff := 8192,
    freeBlocks := [12288], fileSize := 12288, flushed := [] }

/-- The right leaf of S3 after insert(6, "f") landed at its last index. -/
def c6LeafRPlus : Node :=
  { c6LeafR with Keys := [3, 4, 5, 6], Values := ["c", "d", "e", "f"] }

/-- Smaller scenario for the append branch: the parent has keys [5]
and the single child 100; the split left node's maximum 7 exceeds
every parent key, so the search index 1 equals len(children). -/
def c4bParent : Node :=
  { IsActive := true, IsLeaf := false, Self := 500, Next := INVALID_OFFSET,
    Prev := INVALID_OFFSET, Parent := INVALID_OFFSET,
    Children := [100], Keys := [5], Values := [] }

def c4bLeaf : Node :=
  { IsActive := true, IsLeaf := true, Self := 100, Next := 150,
    Prev := INVALID_OFFSET, Parent := 500,
    Children := [], Keys := [6, 7], Values := ["f", "g"] }

def c4bState : TreeState :=
  { disk := [(500, c4bParent)], rootOff := 500,
    freeBlocks := [16384], fileSize := 16384, flushed := [] }

/-- The overfull leaf of scenario S3, before the split: five pairs. -/
def c5Leaf : Node :=
  { IsActive := true, IsLeaf := true, Self := 0, Next := 4096,
    Prev := INVALID_OFFSET, Parent := INVALID_OFFSET, Children := [],
    Keys := [1, 2, 3, 4, 5], Values := ["a", "b", "c", "d", "e"] }

/-- An already-existing right neighbour of the splitting leaf. -/
def c5Next : Node :=
  { IsActive := true, IsLeaf := true, Self := 4096, Next := INVALID_OFFSET,
    Prev := 0, Parent := INVALID_OFFSET, Children := [],
    Keys := [10, 11], Values := ["x", "y"] }

/-- The freshly allocated right leaf, as newNodeFromDisk plus the
IsLeaf flag set by insertIntoLeaf. -/
def c5New : Node :=
  { IsActive := true, IsLeaf := true, Self := 8192, Next := INVALID_OFFSET,
    Prev := INVALID_OFFSET, Parent := INVALID_OFFSET, Children := [],
    Keys := [], Values := [] }

def c5State : TreeState :=
  { disk := [(0, c5Leaf), (4096, c5Next)], rootOff := 0,
    freeBlocks := [], fileSize := 12288, flushed := [] }

/-- The left leaf after the split keeps [1, 2] and points at 8192. -/
def c5LeafAfter : Node :=
  { c5Leaf with Keys := [1, 2], Values := ["a", "b"], Next := 8192 }

/-- The new right leaf after the split holds [3, 4, 5] with prev 0 and
the old left's next 4096. -/
def c5NewAfter : Node :=
  { c5New with
    Keys := [3, 4, 5]
    Values := ["c", "d", "e"]
    Next := 4096
    Prev := 0 }

/-- The ancestor chain that reconstructRootNode walks: from n, Parent
links lead through decodable blocks to a node r whose Parent is the
sentinel. -/
inductive ParentChainR (st : TreeState) : Node → Node → Prop
  | root (n : Node) : n.Parent = INVALID_OFFSET → ParentChainR st n n
  | step (n p r : Node) : n.Parent ≠ INVALID_OFFSET →
      seekNode st n.Parent = some p → ParentChainR st p r → ParentChainR st n r

/-- An inactive (free) block as decoded from never-written space. -/
def c9Inactive : Node :=
  { IsActive := false, IsLeaf := false, Self := 0, Next := INVALID_OFFSET,
    Prev := INVALID_OFFSET, Parent := INVALID_OFFSET, Children := [],
    Keys := [], Values := [] }

/-- A three-block file whose first block is inactive: the first active
block is the leaf at 4096, whose Parent link leads to the root at
8192. -/
def c9State : TreeState :=
  { disk := [(0, c9Inactive), (4096, c6LeafR), (8192, c6Root)], rootOff := 0,
    freeBlocks := [], fileSize := 12288, flushed := [] }

/-- A one-block file whose only block is inactive. -/
def c9bState : TreeState :=
  { disk := [(0, c9Inactive)], rootOff := 0,
    freeBlocks := [], fileSize := 4096, flushed := [] }

/-- The key/children balance of the claim, stated for every node but
binding only internal ones. -/
def InternalLenEq (n : Node) : Prop :=
  n.IsLeaf = false → n.Keys.length = n.Children.length

/-- Every decoded block of the file satisfies the balance. -/
def DiskOK (st : TreeState) : Prop := ∀ p ∈ st.disk, InternalLenEq p.2

/-- Every node written out so far satisfies the balance. -/
def TraceOK (st : TreeState) : Prop := ∀ n ∈ st.flushed, InternalLenEq n

/-- Combined state invariant used through the insert pipeline. -/
def StOK (st : TreeState) : Prop := DiskOK st ∧ TraceOK st

instance (n : Node) : Decidable (InternalLenEq n) := by
  unfold InternalLenEq
  infer_instance

/-! ### Theorems -/

/-- C2: flushNodeToDisk is claimed to perform a positioned write of the
8-byte little-endian data_len prefix plus payload at the node's
self_off.  In the source it performs no file write whatsoever: for
every node and every file state the file bytes after the call are the
file bytes before it, and on a concrete node and file the result
therefore differs from the spec's write_block, whose output is not the
unchanged file. -/
theorem flushNodeToDisk_writes_nothing :
    (∀ (n : Node) (file : List UInt8),
      (Codec.flushNodeToDiskFile n file).1 = file) ∧
    Codec.specWriteBlock [] sampleLeaf ≠ [] := by
  constructor
  · intro n file
    rfl
  · decide

/-- C8: the round trip decode(encode(N)) = N is impossible in the
source: encoding feeds machine-width Go `int` counts/keys and `string`
values to binary.Write, which rejects them, so encodeNode fails with
an invalid-type error on every node; decoding reads the data_len
prefix into a Go `int` through binary.Read, which likewise rejects it,
so seekNode never yields a node from any file at any offset. -/
theorem decode_encode_roundtrip_fails :
    (∀ n : Node, Codec.encodeNode n = .error .invalidType) ∧
    (∀ (file : List UInt8) (off : Int) (nd : Node),
      Codec.seekNodeBytes file off ≠ .ok nd) := by
  constructor
  · intro n
    rfl
  · intro file off nd h
    unfold Codec.seekNodeBytes at h
    cases hr : Codec.readAt file off 8 with
    | error e => rw [hr] at h; cases h
    | ok buf => rw [hr] at h; cases h

/-- C1: the claim says a tree freshly opened on an empty file has
rootOff = INVALID_OFFSET, so that insert(1, "a") takes the empty-tree
path, succeeds, and grows the file.  In the source `&Tree{}` leaves
rootOff at the Go zero value 0, which is not the sentinel, so the
insert descends through findLeafNode, the read of block 0 of the empty
file fails, the call returns that error, and the state — file size
included — is completely unchanged. -/
theorem fresh_open_insert_takes_wrong_path :
    newTreeOnEmptyFile.rootOff ≠ INVALID_OFFSET ∧
    TreeInsert newTreeOnEmptyFile 1 "a" 32 =
      (newTreeOnEmptyFile, .error .readError) ∧
    (TreeInsert newTreeOnEmptyFile 1 "a" 32).1.fileSize = 0 := by
  refine ⟨by decide, rfl, rfl⟩

/-- C3: promoting a root split does everything the claim lists — a
fresh internal block with keys [max(left), max(right)] = [2, 5] and
children [left, right], both children repointed and flushed, rootOff
moved to the new block — but it does not return there: the source
falls through and seeks a parent at INVALID_OFFSET, where no block
exists, so insertIntoParent returns a read error instead of
succeeding. -/
theorem root_promotion_falls_through_to_invalid_seek :
    (insertIntoParent 32 c3State c3Left).2 = .error .readError ∧
    (insertIntoParent 32 c3State c3Left).1.rootOff = 8192 ∧
    (insertIntoParent 32 c3State c3Left).1.flushed =
      [{ c3Left with Parent := 8192 }, { c3Right with Parent := 8192 },
       { IsActive := true, IsLeaf := false, Self := 8192,
         Next := INVALID_OFFSET, Prev := INVALID_OFFSET,
         Parent := INVALID_OFFSET, Children := [0, 4096],
         Keys := [2, 5], Values := [] }] ∧
    seekNode c3State INVALID_OFFSET = none := by
  refine ⟨rfl, rfl, rfl, rfl⟩

/-- C4 counterexample.  The claim predicts that the new right
sibling's maximum (9) is inserted into the parent's keys and that
right_off = 150 is inserted into the children at key_index + 1, which
would flush a parent with keys [9, 9, 20] resp. children
[100, 150, 300].  Running insertIntoParent on the concrete split state
instead flushes keys [2, 9, 20] — the inserted key is the *left*
node's maximum 2 — and children [100, 150, 150]: the slice aliasing of
the children insertion stores 150 in place over the saved tail view,
so 150 appears twice and the old child 300 at slot key_index + 1 is
dropped. -/
theorem promotion_inserts_left_max_and_clobbers_children :
    (insertIntoParent 32 c4State c4Left).2 = .ok () ∧
    (insertIntoParent 32 c4State c4Left).1.flushed =
      [{ c4Parent with Keys := [2, 9, 20], Children := [100, 150, 150] }] ∧
    c4Right.Keys.getLast? = some 9 ∧
    [(2 : Int), 9, 20] ≠ goInsertAt c4Parent.Keys (getIndex c4Parent.Keys 9) 9 ∧
    [(100 : Int), 150, 150] ≠
      c4Parent.Children.take 1 ++ 150 :: c4Parent.Children.drop 1 := by
  refine ⟨rfl, rfl, rfl, by decide, by decide⟩

theorem goSearchAux_bounds (f : Nat → Bool) :
    ∀ (fuel i j : Nat), i ≤ j →
      i ≤ goSearchAux f fuel i j ∧ goSearchAux f fuel i j ≤ j := by
  intro fuel
  induction fuel with
  | zero => intro i j hij; exact ⟨Nat.le_refl i, hij⟩
  | succ fuel ih =>
    intro i j hij
    simp only [goSearchAux]
    by_cases hlt : i < j
    · simp only [hlt, if_true]
      by_cases hf : f ((i + j) / 2)
      · simp only [hf, if_true]
        have h1 : i ≤ (i + j) / 2 := by omega
        have := ih i ((i + j) / 2) h1
        constructor
        · exact this.1
        · exact Nat.le_trans this.2 (by omega)
      · simp only [hf, if_false]
        have h1 : (i + j) / 2 + 1 ≤ j := by omega
        have := ih ((i + j) / 2 + 1) j h1
        constructor
        · exact Nat.le_trans (by omega) this.1
        · exact this.2
    · simp only [hlt, if_false]
      exact ⟨Nat.le_refl i, hij⟩

theorem goSearchAux_spec (f : Nat → Bool) :
    ∀ (fuel i j : Nat), j - i ≤ fuel → i ≤ j →
      (∀ a b, i ≤ a → a ≤ b → b < j → f a = true → f b = true) →
      (∀ k, i ≤ k → k < goSearchAux f fuel i j → f k = false) ∧
      (∀ k, goSearchAux f fuel i j ≤ k → k < j → f k = true) := by
  intro fuel
  induction fuel with
  | zero =>
    intro i j hfuel hij _
    have : i = j := by omega
    subst this
    simp only [goSearchAux]
    exact ⟨fun k h1 h2 => absurd h2 (by omega), fun k h1 h2 => absurd h2 (by omega)⟩
  | succ fuel ih =>
    intro i j hfuel hij hmono
    simp only [goSearchAux]
    by_cases hlt : i < j
    · simp only [hlt, if_true]
      have hh1 : i ≤ (i + j) / 2 := by omega
      have hh2 : (i + j) / 2 < j := by omega
      by_cases hf : f ((i + j) / 2)
      · simp only [hf, if_true]
        have hmono' : ∀ a b, i ≤ a → a ≤ b → b < (i + j) / 2 →
            f a = true → f b = true := by
          intro a b ha hab hb hfa
          exact hmono a b ha hab (by omega) hfa
        have hspec := ih i ((i + j) / 2) (by omega) hh1 hmono'
        have hbd := goSearchAux_bounds f fuel i ((i + j) / 2) hh1
        constructor
        · exact hspec.1
        · intro k hk1 hk2
          by_cases hkh : k < (i + j) / 2
          · exact hspec.2 k hk1 hkh
          · exact hmono ((i + j) / 2) k hh1 (by omega) hk2 hf
      · simp only [hf, if_false]
        have hmono' : ∀ a b, (i + j) / 2 + 1 ≤ a → a ≤ b → b < j →
            f a = true → f b = true := by
          intro a b ha hab hb hfa
          exact hmono a b (by omega) hab hb hfa
        have hspec := ih ((i + j) / 2 + 1) j (by omega) (by omega) hmono'
        have hbd := goSearchAux_bounds f fuel ((i + j) / 2 + 1) j (by omega)
        constructor
        · intro k hk1 hk2
          by_cases hkh : (i + j) / 2 + 1 ≤ k
          · exact hspec.1 k hkh hk2
          · by_cases hfk : f k
            · have : f ((i + j) / 2) = true :=
                hmono k ((i + j) / 2) hk1 (by omega) hh2 hfk
              rw [this] at hf
              exact absurd rfl hf
            · exact Bool.eq_false_iff.mpr hfk
        · exact hspec.2
    · simp only [hlt, if_false]
      have : i = j := by omega
      subst this
      exact ⟨fun k h1 h2 => absurd h2 (by omega), fun k h1 h2 => absurd h2 (by omega)⟩

theorem getIndex_le_length (keys : List Int) (key : Int) :
    getIndex keys key ≤ keys.length :=
  (goSearchAux_bounds _ keys.length 0 keys.length (Nat.zero_le _)).2

/-- On a strictly sorted key list that contains the key, the source's
binary search lands exactly on the key. -/
theorem getIndex_mem_sorted (keys : List Int) (key : Int)
    (hs : keys.Sorted (· < ·)) (hmem : key ∈ keys) :
    getIndex keys key < keys.length ∧ keys.getD (getIndex keys key) 0 = key := by
  have hsorted : ∀ a b, a ≤ b → b < keys.length →
      keys.getD a 0 ≤ keys.getD b 0 := by
    intro a b hab hb
    rcases Nat.eq_or_lt_of_le hab with h | h
    · subst h; exact le_refl _
    · have ha : a < keys.length := by omega
      rw [List.getD_eq_get _ _ ha, List.getD_eq_get _ _ hb]
      exact le_of_lt (List.pairwise_iff_get.mp hs ⟨a, ha⟩ ⟨b, hb⟩ h)
  have hmono : ∀ a b, 0 ≤ a → a ≤ b → b < keys.length →
      decide (key ≤ keys.getD a 0) = true →
      decide (key ≤ keys.getD b 0) = true := by
    intro a b _ hab hb hfa
    have := of_decide_eq_true hfa
    exact decide_eq_true (le_trans this (hsorted a b hab hb))
  have hspec := goSearchAux_spec (fun i => decide (key ≤ keys.getD i 0))
    keys.length 0 keys.length (by omega) (Nat.zero_le _) hmono
  obtain ⟨m, hm⟩ := List.mem_iff_get.mp hmem
  have hgs : getIndex keys key =
      goSearchAux (fun i => decide (key ≤ keys.getD i 0))
        keys.length 0 keys.length := rfl
  have hbd : getIndex keys key ≤ keys.length := getIndex_le_length keys key
  have hmget : keys.getD (m : Nat) 0 = key := by
    rw [List.getD_eq_get _ _ m.isLt]; exact hm
  have hrm : getIndex keys key ≤ (m : Nat) := by
    by_contra hcon
    have hfm : decide (key ≤ keys.getD (m : Nat) 0) = false :=
      hspec.1 (m : Nat) (Nat.zero_le _) (by omega)
    rw [hmget] at hfm
    simp at hfm
  have hrlt : getIndex keys key < keys.length := by
    have := m.isLt
    omega
  have hge : key ≤ keys.getD (getIndex keys key) 0 := by
    have hfr : decide (key ≤ keys.getD (getIndex keys key) 0) = true := by
      rw [hgs]
      exact hspec.2 _ (by omega) (by omega)
    exact of_decide_eq_true hfr
  have hle : keys.getD (getIndex keys key) 0 ≤ keys.getD (m : Nat) 0 :=
    hsorted _ (m : Nat) hrm m.isLt
  rw [hmget] at hle
  exact ⟨hrlt, le_antisymm hle hge⟩

/-- One iteration of the ascent loop under its continue condition:
seek the ancestor, overwrite slot k with the new maximum, flush, and
iterate from the updated ancestor. -/
theorem walkLoop_step (key : Int) (fuel : Nat) (idx off : Int) (cur p : Node)
    (st : TreeState) (k : Nat)
    (hcond1 : off ≠ INVALID_OFFSET) (hcond2 : idx = (cur.Keys.length : Int) - 1)
    (hseek : seekNode st off = some p)
    (hfind : p.Children.findIdx? (fun v => v == cur.Self) = some k)
    (hk : k < p.Keys.length) :
    walkLoop key (fuel + 1) idx off cur st =
      walkLoop key fuel (k : Int)
        ({ p with Keys := p.Keys.set k key } : Node).Parent
        { p with Keys := p.Keys.set k key }
        { st with flushed := st.flushed ++ [{ p with Keys := p.Keys.set k key }] } := by
  conv_lhs => simp only [walkLoop]
  rw [if_pos ⟨hcond1, hcond2⟩]
  simp only [hseek, hfind]
  rw [if_pos ⟨Int.natCast_nonneg k, by simpa using hk⟩]
  simp only [flushNodeToDisk, Int.toNat_natCast]

/-- The ascent loop stops as soon as its condition fails. -/
theorem walkLoop_stop (key : Int) (fuel : Nat) (idx off : Int) (cur : Node)
    (st : TreeState)
    (hcond : ¬(off ≠ INVALID_OFFSET ∧ idx = (cur.Keys.length : Int) - 1)) :
    walkLoop key (fuel + 1) idx off cur st = (st, .ok ()) := by
  conv_lhs => simp only [walkLoop]
  rw [if_neg hcond]

/-- C6: the parent-key maintenance walk.  When the insertion index is
the leaf's last index and the leaf has a parent, the walk seeks that
parent, finds the child slot k holding the leaf's offset, overwrites
that slot's key with the leaf's new maximum, flushes the updated
ancestor, and continues ascending exactly when that ancestor has a
parent and the updated slot was its last slot; otherwise it stops with
that flush as its only effect. -/
theorem mayUpdateParentKeys_ascends_and_updates
    (st : TreeState) (leaf p : Node) (idx k : Nat) (fuel : Nat)
    (hidx : (idx : Int) = (leaf.Keys.length : Int) - 1)
    (hpar : leaf.Parent ≠ INVALID_OFFSET)
    (hseek : seekNode st leaf.Parent = some p)
    (hfind : p.Children.findIdx? (fun v => v == leaf.Self) = some k)
    (hk : k < p.Keys.length) :
    mayUpdateParentKeys st leaf idx (fuel + 2) =
      (let key := leaf.Keys.getD (leaf.Keys.length - 1) 0
       let p' : Node := { p with Keys := p.Keys.set k key }
       let st' := { st with flushed := st.flushed ++ [p'] }
       if p'.Parent ≠ INVALID_OFFSET ∧ (k : Int) = (p'.Keys.length : Int) - 1 then
         walkLoop key (fuel + 1) (k : Int) p'.Parent p' st'
       else (st', .ok ())) := by
  unfold mayUpdateParentKeys
  rw [if_pos ⟨hidx, hpar⟩]
  rw [show fuel + 2 = (fuel + 1) + 1 from rfl]
  rw [walkLoop_step (leaf.Keys.getD (leaf.Keys.length - 1) 0) (fuel + 1)
    (idx : Int) leaf.Parent leaf p st k hpar hidx hseek hfind hk]
  by_cases hc : ({ p with Keys := p.Keys.set k (leaf.Keys.getD (leaf.Keys.length - 1) 0) } : Node).Parent ≠ INVALID_OFFSET ∧
      (k : Int) = ((({ p with Keys := p.Keys.set k (leaf.Keys.getD (leaf.Keys.length - 1) 0) } : Node).Keys.length : Int)) - 1
  · rw [if_pos hc]
  · rw [if_neg hc]
    exact walkLoop_stop _ fuel _ _ _ _ hc

/-- Witness for the walk theorem at the S4 scenario: the right leaf of
the S3 tree just received key 6 at its last index; the walk overwrites
the root's second key (the slot of child 4096) with 6, flushes the
root, and stops because the root has no parent.  The root's keys go
from [2, 5] to [2, 6]. -/
theorem mayUpdateParentKeys_ascends_and_updates_witness :
    mayUpdateParentKeys c6State c6LeafRPlus 3 32 =
      ({ c6State with flushed := [{ c6Root with Keys := [2, 6] }] }, .ok ()) := by
  have h := mayUpdateParentKeys_ascends_and_updates c6State c6LeafRPlus c6Root 3 1 30
    (by decide) (by decide) (by rfl) (by rfl) (by decide)
  rw [h]
  rfl

/-- The full S4 scenario: insert(6, "f") into the S3 tree flushes the
root with its second key updated from 5 to 6 followed by the grown
right leaf, succeeds, and allocates no new block (the free pool is
untouched): no split happened. -/
theorem s4_ascending_max_updates_root_without_split :
    TreeInsert c6State 6 "f" 32 =
      ({ c6State with flushed := [{ c6Root with Keys := [2, 6] }, c6LeafRPlus] },
       .ok ()) ∧
    (TreeInsert c6State 6 "f" 32).1.freeBlocks = c6State.freeBlocks := by
  exact ⟨rfl, rfl⟩

/-- C7: inserting a key that is already present in the located target
leaf fails with the duplicate-key error and returns the state
untouched: the disk map, the root offset, the free pool, the file
size and the flush trace are all exactly the pre-call ones, so in
particular nothing was flushed and every block is unchanged. -/
theorem duplicate_insert_rejected_without_mutation
    (st : TreeState) (key : Int) (val : String) (leaf : Node) (fuel : Nat)
    (hroot : st.rootOff ≠ INVALID_OFFSET)
    (hfind : findLeafNode st key fuel = .ok leaf)
    (hs : leaf.Keys.Sorted (· < ·))
    (hmem : key ∈ leaf.Keys) :
    TreeInsert st key val fuel = (st, .error .hasExistedKey) := by
  have hdup := getIndex_mem_sorted leaf.Keys key hs hmem
  unfold TreeInsert
  rw [if_neg hroot]
  unfold insertIntoLeaf
  rw [hfind]
  unfold insertKeyValIntoLeaf
  simp only []
  rw [if_pos ⟨hdup.1, hdup.2⟩]

/-- Witness: inserting the already-present key 3 into the S3 tree is
rejected and the state comes back byte-for-byte identical. -/
theorem duplicate_insert_rejected_without_mutation_witness :
    TreeInsert c6State 3 "x" 32 = (c6State, .error .hasExistedKey) :=
  duplicate_insert_rejected_without_mutation c6State 3 "x" c6LeafR 32
    (by decide) (by rfl) (by decide) (by decide)

theorem goInsertAt_length (xs : List α) (idx : Nat) (x : α) (h : idx ≤ xs.length) :
    (goInsertAt xs idx x).length = xs.length + 1 := by
  simp only [goInsertAt, List.length_append, List.length_take, List.length_cons,
    List.length_drop]
  omega

theorem goChildrenInsert_length (children : List Int) (idx : Nat) (rightOff : Int) :
    (goChildrenInsert children idx rightOff).length = children.length + 1 := by
  unfold goChildrenInsert
  split
  · simp only [List.length_append, List.length_take, List.length_cons,
      List.length_drop]
    omega
  · simp

/-- C4 as the source actually behaves (the original claim fails, see
the counterexample): when insert_into_parent runs on a split node
whose parent exists, the key inserted into the parent's keys at its
sorted position is the split left node's maximum (leaf.Keys' last
entry), not the right sibling's.  When the insertion index equals
len(children), the right offset is appended only to the in-memory
copy and the function returns success without flushing anything.
Otherwise the children list becomes goChildrenInsert: a plain
insertion at key_index + 1 when that position is the end, and, when
key_index + 1 < len(children), right_off both lands at key_index + 1
and overwrites the saved tail's head, so it appears twice and the old
child at key_index + 1 is dropped; in this branch, whenever the
parent then has at most order keys, the parent is flushed and the
promotion stops. -/
theorem insertIntoParent_promotion_step
    (fuel : Nat) (st : TreeState) (leaf parent : Node) (key : Int)
    (hpar : leaf.Parent ≠ INVALID_OFFSET)
    (hseek : seekNode st leaf.Parent = some parent)
    (hkey : leaf.Keys.getLast? = some key) :
    (getIndex parent.Keys key = parent.Children.length →
      insertIntoParent (fuel + 1) st leaf = (st, .ok ())) ∧
    (getIndex parent.Keys key ≠ parent.Children.length →
      parent.Keys.length + 1 ≤ order →
      insertIntoParent (fuel + 1) st leaf =
        ({ st with flushed := st.flushed ++
            [{ parent with
                Keys := goInsertAt parent.Keys (getIndex parent.Keys key) key,
                Children := goChildrenInsert parent.Children
                  (getIndex parent.Keys key) leaf.Next }] }, .ok ())) := by
  constructor
  · intro hend
    conv_lhs => simp only [insertIntoParent]
    rw [hkey]
    simp only [if_neg hpar, hseek]
    rw [if_pos hend]
  · intro hmid hord
    conv_lhs => simp only [insertIntoParent]
    rw [hkey]
    simp only [if_neg hpar, hseek]
    rw [if_neg hmid]
    rw [if_pos (show (goInsertAt parent.Keys (getIndex parent.Keys key) key).length ≤ order by
      rw [goInsertAt_length _ _ _ (getIndex_le_length _ _)]; exact hord)]
    rfl

/-- Witness for both branches of the promotion-step theorem: the
append branch returns success without flushing and without touching
the state, and the middle branch flushes the parent with the left
maximum inserted into the keys and the children rewritten by the
aliasing insertion. -/
theorem insertIntoParent_promotion_step_witness :
    insertIntoParent 33 c4bState c4bLeaf = (c4bState, .ok ()) ∧
    insertIntoParent 33 c4State c4Left =
      ({ c4State with flushed :=
          [{ c4Parent with Keys := [2, 9, 20], Children := [100, 150, 150] }] },
       .ok ()) := by
  constructor
  · exact (insertIntoParent_promotion_step 32 c4bState c4bLeaf c4bParent 7
      (by decide) (by rfl) (by rfl)).1 (by decide)
  · have h := (insertIntoParent_promotion_step 32 c4State c4Left c4Parent 2
      (by decide) (by rfl) (by rfl)).2 (by decide) (by decide)
    rw [h]
    rfl

/-- C5: a leaf holding order + 1 = 5 entries splits at
split = cut order = (order + 1) / 2 = 2: the left leaf keeps the
first 2 key/value pairs, the new right leaf receives the pairs at
indices [2..4] (keys and values in lockstep), the new right's next is
the old left's next, the left's next is the new right's self, the new
right's prev is the left's self, and, when the old next existed, it
is flushed with its prev repointed at the new right; left and right
are flushed in both cases. -/
theorem splitLeafIntoTwoLeaves_spec
    (st : TreeState) (leaf newLeaf : Node)
    (hk : leaf.Keys.length = order + 1)
    (hv : leaf.Values.length = order + 1) :
    (let leafAfter : Node := { leaf with
       Keys := leaf.Keys.take (cut order), Values := leaf.Values.take (cut order),
       Next := newLeaf.Self }
     let newAfter : Node := { newLeaf with
       Keys := leaf.Keys.drop (cut order), Values := leaf.Values.drop (cut order),
       Next := leaf.Next, Prev := leaf.Self, Parent := leaf.Parent }
     (leaf.Next = INVALID_OFFSET →
       splitLeafIntoTwoLeaves st leaf newLeaf =
         ({ st with flushed := st.flushed ++ [leafAfter, newAfter] },
          leafAfter, newAfter, .ok ())) ∧
     (∀ nxt, leaf.Next ≠ INVALID_OFFSET → seekNode st leaf.Next = some nxt →
       splitLeafIntoTwoLeaves st leaf newLeaf =
         ({ st with flushed := st.flushed ++
             [leafAfter, newAfter, { nxt with Prev := newLeaf.Self }] },
          leafAfter, newAfter, .ok ()))) := by
  have htk : (leaf.Keys.drop (cut order)).take (order + 1 - cut order) =
      leaf.Keys.drop (cut order) := by
    apply List.take_of_length_le
    rw [List.length_drop, hk]
  have htv : (leaf.Values.drop (cut order)).take (order + 1 - cut order) =
      leaf.Values.drop (cut order) := by
    apply List.take_of_length_le
    rw [List.length_drop, hv]
  constructor
  · intro hinv
    unfold splitLeafIntoTwoLeaves
    rw [if_pos ⟨by omega, by omega⟩]
    simp only [flushNodeToDisk, htk, htv]
    rw [if_neg (by simpa using hinv)]
    simp [List.append_assoc]
  · intro nxt hninv hseek
    have hseek' : diskGet st.disk leaf.Next = some nxt := hseek
    unfold splitLeafIntoTwoLeaves
    rw [if_pos ⟨by omega, by omega⟩]
    simp only [flushNodeToDisk, htk, htv]
    rw [if_pos (by simpa using hninv)]
    simp only [seekNode, hseek', flushNodeToDisk]
    simp [List.append_assoc]

/-- Witness: splitting the concrete five-entry leaf leaves [1, 2] on
the left, moves [3, 4, 5] (with values c, d, e) to the right, threads
the sibling links through the new right leaf, and flushes the old
next neighbour with prev repointed to 8192. -/
theorem splitLeafIntoTwoLeaves_spec_witness :
    splitLeafIntoTwoLeaves c5State c5Leaf c5New =
      ({ c5State with
          flushed := [c5LeafAfter, c5NewAfter, { c5Next with Prev := 8192 }] },
       c5LeafAfter, c5NewAfter, .ok ()) := by
  have h := (splitLeafIntoTwoLeaves_spec c5State c5Leaf c5New
    (by decide) (by decide)).2 c5Next (by decide) (by rfl)
  rw [h]
  decide

theorem chaseParent_of_chain (st : TreeState) (n r : Node)
    (h : ParentChainR st n r) :
    ∃ f0, ∀ fuel, f0 ≤ fuel → chaseParent st fuel n = .ok r := by
  induction h with
  | root n hn =>
    refine ⟨1, fun fuel hf => ?_⟩
    match fuel, hf with
    | f + 1, _ =>
      unfold chaseParent
      rw [if_neg (not_not_intro hn)]
  | step n p r hn hseek hchain ih =>
    obtain ⟨f0, hf0⟩ := ih
    refine ⟨f0 + 1, fun fuel hf => ?_⟩
    match fuel, hf with
    | f + 1, hf =>
      unfold chaseParent
      rw [if_pos hn]
      simp only [hseek]
      exact hf0 f (by omega)

theorem reconScan_reaches (st : TreeState) (B : Nat → Node) (k : Nat)
    (hscan : ∀ j, j < k →
      seekNode st (4096 * (j : Int)) = some (B j) ∧ (B j).IsActive = false)
    (nk : Node) (hk : seekNode st (4096 * (k : Int)) = some nk)
    (hact : nk.IsActive = true)
    (hsize : 4096 * (k : Int) < st.fileSize) :
    ∀ fuel i last, i ≤ k → k - i < fuel →
      reconScan st fuel (4096 * (i : Int)) last = .ok (some nk) := by
  intro fuel
  induction fuel with
  | zero => intro i last _ h2; omega
  | succ fuel ih =>
    intro i last hik hfuel
    conv_lhs => simp only [reconScan]
    by_cases hik' : i = k
    · subst hik'
      rw [if_pos hsize]
      simp only [hk]
      rw [if_pos hact]
    · have hlt : i < k := lt_of_le_of_ne hik hik'
      have hci : (i : Int) ≤ (k : Int) := by exact_mod_cast le_of_lt hlt
      have hsz : 4096 * (i : Int) < st.fileSize := by omega
      rw [if_pos hsz]
      obtain ⟨hj, hjact⟩ := hscan i hlt
      simp only [hj]
      rw [if_neg (by simp [hjact])]
      have hstep : 4096 * (i : Int) + BLOCK_SIZE = 4096 * ((i + 1 : Nat) : Int) := by
        unfold BLOCK_SIZE
        push_cast
        ring
      rw [hstep]
      exact ih (i + 1) (some (B i)) hlt (by omega)

theorem reconScan_all_inactive (st : TreeState) (B : Nat → Node) (m : Nat)
    (hscan : ∀ j, j < m →
      seekNode st (4096 * (j : Int)) = some (B j) ∧ (B j).IsActive = false)
    (hsize : st.fileSize = 4096 * (m : Int)) :
    ∀ fuel i last, i ≤ m → m - i < fuel →
      reconScan st fuel (4096 * (i : Int)) last =
        .ok (if i < m then some (B (m - 1)) else last) := by
  intro fuel
  induction fuel with
  | zero => intro i last _ h2; omega
  | succ fuel ih =>
    intro i last him hfuel
    conv_lhs => simp only [reconScan]
    by_cases him' : i = m
    · subst him'
      rw [if_neg (by omega), if_neg (by omega)]
    · have hlt : i < m := lt_of_le_of_ne him him'
      have hci : (i : Int) < (m : Int) := by exact_mod_cast hlt
      rw [if_pos (by omega)]
      obtain ⟨hj, hjact⟩ := hscan i hlt
      simp only [hj]
      rw [if_neg (by simp [hjact])]
      have hstep : 4096 * (i : Int) + BLOCK_SIZE = 4096 * ((i + 1 : Nat) : Int) := by
        unfold BLOCK_SIZE
        push_cast
        ring
      rw [hstep]
      rw [ih (i + 1) (some (B i)) hlt (by omega)]
      by_cases hi1 : i + 1 < m
      · rw [if_pos hi1, if_pos hlt]
      · have hieq : i = m - 1 := by omega
        rw [if_neg hi1, if_pos hlt, hieq]

/-- C9: recovery on a non-empty file.  First part: when the blocks at
offsets 0, 4096, …, 4096·(k-1) decode inactive and the block at
4096·k decodes active, and the Parent links from that node lead to a
node r with Parent = INVALID_OFFSET, then reconstructRootNode (with
enough fuel) succeeds and sets rootOff to r's self offset.  Second
part: when every block of the file decodes and none is active,
reconstructRootNode fails with the invalid-format error. -/
theorem recovery_finds_root_or_fails (st : TreeState) :
    (∀ (B : Nat → Node) (k : Nat) (nk r : Node),
      (∀ j, j < k →
        seekNode st (4096 * (j : Int)) = some (B j) ∧ (B j).IsActive = false) →
      seekNode st (4096 * (k : Int)) = some nk → nk.IsActive = true →
      4096 * (k : Int) < st.fileSize →
      ParentChainR st nk r →
      ∃ fuel, reconstructRootNode st fuel =
        ({ st with rootOff := r.Self }, .ok ())) ∧
    (∀ (B : Nat → Node) (m : Nat), 1 ≤ m → st.fileSize = 4096 * (m : Int) →
      (∀ j, j < m →
        seekNode st (4096 * (j : Int)) = some (B j) ∧ (B j).IsActive = false) →
      ∃ fuel, reconstructRootNode st fuel = (st, .error .invalidDBFormat)) := by
  constructor
  · intro B k nk r hscan hk hact hsize hchain
    obtain ⟨f0, hchase⟩ := chaseParent_of_chain st nk r hchain
    refine ⟨k + 1 + f0, ?_⟩
    have hscanr := reconScan_reaches st B k hscan nk hk hact hsize
      (k + 1 + f0) 0 none (Nat.zero_le _) (by omega)
    norm_num at hscanr
    unfold reconstructRootNode
    simp only [hscanr]
    rw [if_neg (by simp [hact])]
    simp only [hchase (k + 1 + f0) (by omega)]
  · intro B m hm hsize hscan
    refine ⟨m + 1, ?_⟩
    have hscanr := reconScan_all_inactive st B m hscan hsize
      (m + 1) 0 none (Nat.zero_le _) (by omega)
    rw [if_pos (by omega)] at hscanr
    norm_num at hscanr
    unfold reconstructRootNode
    simp only [hscanr]
    rw [if_pos (by simp [(hscan (m - 1) (by omega)).2])]

/-- Witness: on the three-block file, recovery skips the inactive
block 0, finds the active leaf at 4096, follows its Parent to the
root at 8192 and records rootOff = 8192; on the all-inactive
one-block file, recovery fails with the invalid-format error. -/
theorem recovery_finds_root_or_fails_witness :
    (∃ fuel, reconstructRootNode c9State fuel =
      ({ c9State with rootOff := 8192 }, .ok ())) ∧
    (∃ fuel, reconstructRootNode c9bState fuel =
      (c9bState, .error .invalidDBFormat)) := by
  constructor
  · exact (recovery_finds_root_or_fails c9State).1 (fun _ => c9Inactive) 1
      c6LeafR c6Root
      (fun j hj => by
        have hj0 : j = 0 := by omega
        subst hj0
        exact ⟨rfl, rfl⟩)
      (by rfl) (by rfl) (by decide)
      (.step c6LeafR c6Root c6Root (by decide) (by rfl)
        (.root c6Root (by rfl)))
  · exact (recovery_finds_root_or_fails c9bState).2 (fun _ => c9Inactive) 1
      (by omega) (by rfl)
      (fun j hj => by
        have hj0 : j = 0 := by omega
        subst hj0
        exact ⟨rfl, rfl⟩)

theorem diskGet_mem : ∀ (l : List (Int × Node)) (off : Int) (n : Node),
    diskGet l off = some n → (off, n) ∈ l := by
  intro l
  induction l with
  | nil => intro off n h; cases h
  | cons hd tl ih =>
    intro off n h
    rcases hd with ⟨o, nd⟩
    unfold diskGet at h
    by_cases ho : o = off
    · rw [if_pos ho] at h
      cases h
      rw [← ho]
      exact List.mem_cons_self _ _
    · rw [if_neg ho] at h
      exact List.mem_cons_of_mem _ (ih off n h)

theorem seekNode_internalLenEq {st : TreeState} {off : Int} {n : Node}
    (hd : DiskOK st) (h : seekNode st off = some n) : InternalLenEq n :=
  hd (off, n) (diskGet_mem st.disk off n h)

theorem stOK_flush {st : TreeState} {n : Node} (h : StOK st)
    (hn : InternalLenEq n) : StOK { st with flushed := st.flushed ++ [n] } := by
  refine ⟨h.1, fun x hx => ?_⟩
  rcases List.mem_append.mp hx with hx | hx
  · exact h.2 x hx
  · rw [List.mem_singleton.mp hx]
    exact hn

theorem stOK_of_parts {st st' : TreeState} (hd : st'.disk = st.disk)
    (hf : st'.flushed = st.flushed) (h : StOK st) : StOK st' := by
  refine ⟨fun p hp => h.1 p (by rw [← hd]; exact hp),
          fun n hn => h.2 n (by rw [← hf]; exact hn)⟩

theorem allocNewFreeNodeInDisk_parts (st : TreeState) (fuel : Nat) :
    (allocNewFreeNodeInDisk st fuel).1.disk = st.disk ∧
    (allocNewFreeNodeInDisk st fuel).1.flushed = st.flushed := by
  unfold allocNewFreeNodeInDisk
  split
  · exact ⟨rfl, rfl⟩
  · exact ⟨rfl, rfl⟩

theorem newNodeFromDisk_parts (st : TreeState) (fuel : Nat) :
    (newNodeFromDisk st fuel).1.disk = st.disk ∧
    (newNodeFromDisk st fuel).1.flushed = st.flushed := by
  obtain ⟨h1, h2⟩ := allocNewFreeNodeInDisk_parts st fuel
  unfold newNodeFromDisk
  unfold_let
  split
  next st1 e heq =>
    split at heq
    · rw [heq] at h1 h2
      exact ⟨h1, h2⟩
    · have hst : st1 = st := (congrArg Prod.fst heq).symm
      subst hst
      exact ⟨rfl, rfl⟩
  next st1 heq =>
    split at heq
    · rw [heq] at h1 h2
      split
      · exact ⟨h1, h2⟩
      · exact ⟨h1, h2⟩
    · have hst : st1 = st := (congrArg Prod.fst heq).symm
      subst hst
      split
      · exact ⟨rfl, rfl⟩
      · exact ⟨rfl, rfl⟩

theorem newNodeFromDisk_node (st : TreeState) (fuel : Nat) (st' : TreeState)
    (nd : Node) (h : newNodeFromDisk st fuel = (st', .ok nd)) :
    nd.Keys = [] ∧ nd.Children = [] ∧ nd.IsLeaf = false := by
  unfold newNodeFromDisk at h
  unfold_let at h
  split at h
  · simp at h
  · split at h
    · simp at h
    · simp only [Prod.mk.injEq, Except.ok.injEq] at h
      rw [← h.2]
      exact ⟨rfl, rfl, rfl⟩

theorem findLeafLoop_isLeaf (st : TreeState) (key : Int) :
    ∀ (fuel : Nat) (node leaf : Node),
      findLeafLoop st key fuel node = .ok leaf → leaf.IsLeaf = true := by
  intro fuel
  induction fuel with
  | zero => intro node leaf h; cases h
  | succ fuel ih =>
    intro node leaf h
    unfold findLeafLoop at h
    by_cases hl : node.IsLeaf
    · rw [if_pos hl] at h
      cases h
      exact hl
    · rw [if_neg hl] at h
      unfold_let at h
      repeat' split at h
      all_goals first | exact ih _ leaf h | cases h

theorem internalLenEq_of_leaf {n : Node} (h : n.IsLeaf = true) :
    InternalLenEq n := by
  intro hf
  rw [hf] at h
  exact absurd h (by decide)

theorem walkLoop_stok (key : Int) :
    ∀ (fuel : Nat) (idx off : Int) (cur : Node) (st : TreeState),
      StOK st → StOK (walkLoop key fuel idx off cur st).1 := by
  intro fuel
  induction fuel with
  | zero => intro idx off cur st h; exact h
  | succ fuel ih =>
    intro idx off cur st h
    unfold walkLoop
    split
    · split
      · exact h
      next p hseek =>
        unfold_let
        split
        · simp only [flushNodeToDisk]
          apply ih
          apply stOK_flush h
          intro hf
          rw [List.length_set]
          exact seekNode_internalLenEq h.1 hseek hf
        · exact h
    · exact h

theorem mayUpdateParentKeys_stok (st : TreeState) (leaf : Node)
    (idx fuel : Nat) (h : StOK st) :
    StOK (mayUpdateParentKeys st leaf idx fuel).1 := by
  unfold mayUpdateParentKeys
  split
  · exact walkLoop_stok _ _ _ _ _ _ h
  · exact h

theorem splitLeafIntoTwoLeaves_stok (st : TreeState) (leaf newLeaf : Node)
    (h : StOK st) (hleaf : leaf.IsLeaf = true) (hnew : newLeaf.IsLeaf = true) :
    StOK (splitLeafIntoTwoLeaves st leaf newLeaf).1 := by
  have hle : InternalLenEq { leaf with
      Keys := leaf.Keys.take (cut order), Values := leaf.Values.take (cut order),
      Next := newLeaf.Self } := internalLenEq_of_leaf hleaf
  have hne : ∀ ks vs, InternalLenEq { newLeaf with
      Keys := ks, Values := vs,
      Next := leaf.Next, Prev := leaf.Self, Parent := leaf.Parent } :=
    fun ks vs => internalLenEq_of_leaf hnew
  unfold splitLeafIntoTwoLeaves
  split
  · unfold_let
    simp only [flushNodeToDisk]
    split
    · split
      · exact stOK_flush (stOK_flush h hle) (hne _ _)
      next nxt hseek =>
        simp only [flushNodeToDisk]
        apply stOK_flush (stOK_flush (stOK_flush h hle) (hne _ _))
        exact fun hf => seekNode_internalLenEq h.1 hseek hf
    · exact stOK_flush (stOK_flush h hle) (hne _ _)
  · exact h

theorem newRootNode_stok (st : TreeState) (left right : Node) (fuel : Nat)
    (h : StOK st) (hl : InternalLenEq left) (hr : InternalLenEq right) :
    StOK (newRootNode st left right fuel).1 := by
  unfold newRootNode
  split
  next st1 e heq =>
    have hparts := newNodeFromDisk_parts st fuel
    rw [heq] at hparts
    exact stOK_of_parts hparts.1 hparts.2 h
  next st1 root heq =>
    have hparts := newNodeFromDisk_parts st fuel
    rw [heq] at hparts
    have h1 : StOK st1 := stOK_of_parts hparts.1 hparts.2 h
    split
    next lk rk =>
      unfold_let
      simp only [flushNodeToDisk]
      constructor
      · intro p hp
        exact h1.1 p (by simpa using hp)
      · intro n hn
        simp only [List.append_assoc, List.mem_append, List.mem_cons,
          List.not_mem_nil, or_false] at hn
        rcases hn with hn | hn | hn | hn
        · exact h1.2 n hn
        · subst hn
          exact fun hf => hl hf
        · subst hn
          exact fun hf => hr hf
        · subst hn
          exact fun _ => rfl
    next => exact h1

theorem splitParentLoop_stok :
    ∀ (idxs : List Nat) (st : TreeState) (parent newNode : Node),
      StOK st → StOK (splitParentLoop st parent newNode idxs).1 := by
  intro idxs
  induction idxs with
  | nil => intro st parent newNode h; exact h
  | cons i rest ih =>
    intro st parent newNode h
    unfold splitParentLoop
    split
    · unfold_let
      split
      · exact h
      next child hseek =>
        simp only [flushNodeToDisk]
        apply ih
        apply stOK_flush h
        exact fun hf => seekNode_internalLenEq h.1 hseek hf
    · exact h

theorem splitParentLoop_lens :
    ∀ (idxs : List Nat) (st : TreeState) (parent newNode : Node)
      (st' : TreeState) (nn : Node),
      splitParentLoop st parent newNode idxs = (st', nn, .ok ()) →
      newNode.Keys.length = newNode.Children.length →
      nn.Keys.length = nn.Children.length ∧ nn.IsLeaf = newNode.IsLeaf := by
  intro idxs
  induction idxs with
  | nil =>
    intro st parent newNode st' nn h hlen
    cases h
    exact ⟨hlen, rfl⟩
  | cons i rest ih =>
    intro st parent newNode st' nn h hlen
    unfold splitParentLoop at h
    split at h
    · unfold_let at h
      split at h
      · simp at h
      next child hseek =>
        simp only [flushNodeToDisk] at h
        have hres := ih _ _ _ _ _ h (by simp [hlen])
        exact ⟨hres.1, hres.2⟩
    · simp at h

theorem splitParentLoop_stok' {st st' : TreeState} {parent newNode nn : Node}
    {idxs : List Nat} {r : Except GoErr Unit}
    (heq : splitParentLoop st parent newNode idxs = (st', nn, r))
    (h : StOK st) : StOK st' := by
  have hst := splitParentLoop_stok idxs st parent newNode h
  rw [heq] at hst
  exact hst

theorem splitParentLoop_lens' {st st' : TreeState} {parent newNode nn : Node}
    {idxs : List Nat}
    (heq : splitParentLoop st parent newNode idxs = (st', nn, .ok ()))
    (hlen : newNode.Keys.length = newNode.Children.length) :
    nn.Keys.length = nn.Children.length ∧ nn.IsLeaf = newNode.IsLeaf :=
  splitParentLoop_lens idxs st parent newNode st' nn heq hlen

theorem insertIntoParent_stok :
    ∀ (fuel : Nat) (st : TreeState) (leaf : Node),
      StOK st → StOK (insertIntoParent fuel st leaf).1 := by
  intro fuel
  induction fuel with
  | zero => intro st leaf h; exact h
  | succ fuel ih =>
    intro st leaf h
    unfold insertIntoParent
    split
    · exact h
    next key hkey =>
      unfold_let
      split
      next st2 e heq2 =>
        split at heq2
        · split at heq2
          · cases heq2
            exact h
          next left hseekl =>
            split at heq2
            · cases heq2
              exact h
            next right hseekr =>
              have hst := newRootNode_stok st left right fuel h
                (seekNode_internalLenEq h.1 hseekl)
                (seekNode_internalLenEq h.1 hseekr)
              rw [heq2] at hst
              exact hst
        · simp at heq2
      next st2 heq2 =>
        have h2 : StOK st2 := by
          split at heq2
          · split at heq2
            · simp at heq2
            next left hseekl =>
              split at heq2
              · simp at heq2
              next right hseekr =>
                have hst := newRootNode_stok st left right fuel h
                  (seekNode_internalLenEq h.1 hseekl)
                  (seekNode_internalLenEq h.1 hseekr)
                rw [heq2] at hst
                exact hst
          · cases heq2
            exact h
        split
        · exact h2
        next parent hseekp =>
          have hp : InternalLenEq parent := seekNode_internalLenEq h2.1 hseekp
          split
          · exact h2
          next hnotend =>
            split
            next hord =>
              simp only [flushNodeToDisk]
              apply stOK_flush h2
              intro hf
              rw [goInsertAt_length _ _ _ (getIndex_le_length _ _),
                goChildrenInsert_length, hp hf]
            next =>
              split
              next st3 e heq3 =>
                have hparts := newNodeFromDisk_parts st2 fuel
                rw [heq3] at hparts
                exact stOK_of_parts hparts.1 hparts.2 h2
              next st3 newNode heq3 =>
                have hparts := newNodeFromDisk_parts st2 fuel
                rw [heq3] at hparts
                have h3 : StOK st3 := stOK_of_parts hparts.1 hparts.2 h2
                have hnode := newNodeFromDisk_node st2 fuel st3 newNode heq3
                split
                next st4 nn e heq4 =>
                  exact splitParentLoop_stok' heq4 h3
                next st4 nn2 heq4 =>
                  have h4 : StOK st4 := splitParentLoop_stok' heq4 h3
                  have hlens := splitParentLoop_lens' heq4
                    (by rw [hnode.1, hnode.2.1])
                  split
                  next st5 e heq5 =>
                    split at heq5
                    · split at heq5
                      · cases heq5
                        exact h4
                      next ori hseeko =>
                        simp [flushNodeToDisk] at heq5
                    · simp at heq5
                  next st5 heq5 =>
                    have h5 : StOK st5 := by
                      split at heq5
                      · split at heq5
                        · simp at heq5
                        next ori hseeko =>
                          simp only [flushNodeToDisk, Prod.mk.injEq] at heq5
                          rw [← heq5.1]
                          apply stOK_flush h4
                          exact fun hf => seekNode_internalLenEq h4.1 hseeko hf
                      · cases heq5
                        exact h4
                    split
                    next st6 e heq6 =>
                      simp [flushNodeToDisk] at heq6
                    next st6 heq6 =>
                      simp only [flushNodeToDisk, Prod.mk.injEq] at heq6
                      have h6 : StOK st6 := by
                        rw [← heq6.1]
                        apply stOK_flush h5
                        intro hf
                        simp only [List.length_take]
                        rw [goInsertAt_length _ _ _ (getIndex_le_length _ _),
                          goChildrenInsert_length, hp hf]
                      split
                      next st7 e heq7 =>
                        simp [flushNodeToDisk] at heq7
                      next st7 heq7 =>
                        simp only [flushNodeToDisk, Prod.mk.injEq] at heq7
                        have h7 : StOK st7 := by
                          rw [← heq7.1]
                          apply stOK_flush h6
                          intro hf
                          exact hlens.1
                        exact ih st7 _ h7

theorem insertIntoLeaf_stok (st : TreeState) (key : Int) (val : String)
    (fuel : Nat) (h : StOK st) : StOK (insertIntoLeaf st key val fuel).1 := by
  unfold insertIntoLeaf
  split
  · exact h
  next leaf hfind =>
    have hleaf : leaf.IsLeaf = true := by
      unfold findLeafNode at hfind
      split at hfind
      · cases hfind
      · exact findLeafLoop_isLeaf st key fuel _ leaf hfind
    split
    · exact h
    next leaf2 idx hinsert =>
      have hleaf2 : leaf2.IsLeaf = true := by
        unfold insertKeyValIntoLeaf at hinsert
        unfold_let at hinsert
        split at hinsert
        · cases hinsert
        · simp only [Except.ok.injEq, Prod.mk.injEq] at hinsert
          rw [← hinsert.1]
          exact hleaf
      split
      next st2 e heq2 =>
        have hst := mayUpdateParentKeys_stok st leaf2 idx fuel h
        rw [heq2] at hst
        exact hst
      next st2 heq2 =>
        have h2 : StOK st2 := by
          have hst := mayUpdateParentKeys_stok st leaf2 idx fuel h
          rw [heq2] at hst
          exact hst
        split
        · simp only [flushNodeToDisk]
          exact stOK_flush h2 (internalLenEq_of_leaf hleaf2)
        · split
          next st3 e heq3 =>
            have hparts := newNodeFromDisk_parts st2 fuel
            rw [heq3] at hparts
            exact stOK_of_parts hparts.1 hparts.2 h2
          next st3 newLeaf heq3 =>
            have hparts := newNodeFromDisk_parts st2 fuel
            rw [heq3] at hparts
            have h3 : StOK st3 := stOK_of_parts hparts.1 hparts.2 h2
            unfold_let
            split
            next st4 a b e heq4 =>
              have hst := splitLeafIntoTwoLeaves_stok st3 leaf2
                { newLeaf with IsLeaf := true } h3 hleaf2 rfl
              rw [heq4] at hst
              exact hst
            next st4 leaf3 c heq4 =>
              have h4 : StOK st4 := by
                have hst := splitLeafIntoTwoLeaves_stok st3 leaf2
                  { newLeaf with IsLeaf := true } h3 hleaf2 rfl
                rw [heq4] at hst
                exact hst
              exact insertIntoParent_stok fuel st4 leaf3 h4

/-- C10: every internal node flushed by the insert pipeline — root
creation, promotion into a parent, internal split, and the parent-key
maintenance walk — has exactly as many keys as children, provided
every internal node already decoded from the file and every internal
node flushed so far satisfy that same balance: the equality is
preserved from any state in which it holds. -/
theorem internal_nodes_stay_balanced (st : TreeState) (key : Int)
    (val : String) (fuel : Nat)
    (hdisk : ∀ p ∈ st.disk, InternalLenEq p.2)
    (htrace : ∀ n ∈ st.flushed, InternalLenEq n) :
    ∀ n ∈ (TreeInsert st key val fuel).1.flushed, InternalLenEq n := by
  have h : StOK st := ⟨hdisk, htrace⟩
  have hres : StOK (TreeInsert st key val fuel).1 := by
    unfold TreeInsert
    split
    · split
      next st2 e heq2 =>
        have hparts := newNodeFromDisk_parts st fuel
        rw [heq2] at hparts
        exact stOK_of_parts hparts.1 hparts.2 h
      next st2 node heq2 =>
        have hparts := newNodeFromDisk_parts st fuel
        rw [heq2] at hparts
        have h2 := stOK_of_parts hparts.1 hparts.2 h
        unfold_let
        simp only [flushNodeToDisk]
        constructor
        · intro p hp
          exact h2.1 p (by simpa using hp)
        · intro n hn
          simp only [List.mem_append, List.mem_cons, List.not_mem_nil,
            or_false] at hn
          rcases hn with hn | hn
          · exact h2.2 n hn
          · subst hn
            exact fun hf => absurd hf (by simp)
    · exact insertIntoLeaf_stok st key val fuel h
  exact hres.2

/-- Witness: inserting 6 into the concrete S3 tree flushes the updated
root, which is among the flushed nodes and is balanced (two keys, two
children). -/
theorem internal_nodes_stay_balanced_witness :
    { c6Root with Keys := [2, 6] } ∈ (TreeInsert c6State 6 "f" 32).1.flushed ∧
    InternalLenEq { c6Root with Keys := [2, 6] } := by
  constructor
  · decide
  · exact internal_nodes_stay_balanced c6State 6 "f" 32 (by decide) (by decide)
      { c6Root with Keys := [2, 6] } (by decide)
